import Mathlib

/-!
Verification of the Kabutr LSB-steganography core (`src/helper_functions.py`).

Byte strings are modelled as `List Nat` with every element `< 256` (the predicate
`Bytes`); images are flat row-major sample buffers of unsigned 8-bit values, as the
numpy `uint8` arrays the source works with.  Text values (`message`, `password`)
enter the core through `.encode('utf-8')` / leave through `.decode('utf-8')`, so
they appear here as their UTF-8 byte lists.  The two randomness draws of an encode
call (`os.urandom(16)` for the salt, and the IV drawn inside the Fernet library)
are made explicit arguments `salt` and `nonce`.

The cryptographic library functions (PBKDF2, Fernet) are not part of the
repository; they are modelled from the spec (sections 4.1, 4.2) at the
ideal-functionality level, with concrete executable bodies.
-/

set_option maxHeartbeats 1000000
set_option maxRecDepth 100000

namespace Kabutr

/-- Predicate: a list is a byte string (every element fits in 8 bits). -/
def Bytes (xs : List Nat) : Prop := ∀ b ∈ xs, b < 256

instance : DecidablePred Bytes := fun xs =>
  inferInstanceAs (Decidable (∀ b ∈ xs, b < 256))

/-- Python `int.from_bytes(xs, 'big')`. -/
def fromBytesBE (xs : List Nat) : Nat := xs.foldl (fun a b => 256 * a + b) 0

/-- Python `v.to_bytes(n, 'big')`, value part.  (The `OverflowError` raised by
`to_bytes` when `v >= 256 ^ n` is modelled by an explicit branch at the call
site in `encodePy`.) -/
def toBytesBE (n v : Nat) : List Nat :=
  (List.range n).map (fun i => v / 256 ^ (n - 1 - i) % 256)

/-- `np.unpackbits` on a single byte: most-significant bit first. -/
def byteBits (x : Nat) : List Nat :=
  [x >>> 7 &&& 1, x >>> 6 &&& 1, x >>> 5 &&& 1, x >>> 4 &&& 1,
   x >>> 3 &&& 1, x >>> 2 &&& 1, x >>> 1 &&& 1, x &&& 1]

/-- `np.unpackbits` on a byte array. -/
def unpackbits (xs : List Nat) : List Nat := (xs.map byteBits).flatten

/-- One output byte of `np.packbits`: up to 8 bits, most-significant first,
nonzero elements counting as 1, zero-padded at the low end when fewer than
8 bits remain. -/
def chunkByte (bs : List Nat) : Nat :=
  (bs.foldl (fun a b => 2 * a + (if b = 0 then 0 else 1)) 0) <<< (8 - bs.length)

/-- `np.packbits`: pack a bit list into bytes, 8 bits per byte MSB first, the
final partial group zero-padded. -/
def packbits : List Nat → List Nat
  | [] => []
  | b0 :: b1 :: b2 :: b3 :: b4 :: b5 :: b6 :: b7 :: rest =>
    chunkByte [b0, b1, b2, b3, b4, b5, b6, b7] :: packbits rest
  | bs => [chunkByte bs]

/-- Fuel-driven worker for `varint`; the fuel only bounds the recursion depth
(structural recursion keeps the definition kernel-reducible), and `varint`
always supplies enough of it. -/
def varintFuel : Nat → Nat → List Nat
  | 0, n => [n % 128]
  | fuel + 1, n => if n < 128 then [n] else (128 + n % 128) :: varintFuel fuel (n / 128)

/-- Little-endian base-128 varint encoding of a natural number (used only inside
the modelled Fernet token format, to delimit variable-length fields). -/
def varint (n : Nat) : List Nat := varintFuel n n

/-- Parse a varint from the front of a byte list. -/
def parseVarint : List Nat → Option (Nat × List Nat)
  | [] => none
  | b :: rest =>
    if b < 128 then some (b, rest)
    else
      match parseVarint rest with
      | some (n, r) => some (b - 128 + 128 * n, r)
      | none => none

/-- A length-delimited field: varint byte-length, then the bytes. -/
def lenField (xs : List Nat) : List Nat := varint xs.length ++ xs

/-- Parse one length-delimited field from the front of a byte list. -/
def parseField (data : List Nat) : Option (List Nat × List Nat) :=
  match parseVarint data with
  | some (n, rest) => if n ≤ rest.length then some (rest.take n, rest.drop n) else none
  | none => none

/-- Modelled from the spec (section 4.1): the library call `kdf.derive` of
PBKDF2-HMAC-SHA256 at 100,000 iterations, output length 32, which is not part of
the repository.  The model keeps the contract the spec states — a pure,
deterministic function of (password, salt) producing 32 bytes — with a concrete
executable mixing body standing in for the hash, which the spec treats as a
black box. -/
def kdfDerive (password salt : List Nat) : List Nat :=
  (List.range 32).map (fun i =>
    password.foldl (fun a b => (a * 31 + b) % 256)
      ((i + salt.foldl (fun a b => (a * 31 + b) % 256) 0) % 256))

/-- Byte value of the `base64.urlsafe_b64encode` character for a 6-bit group. -/
def b64Char (v : Nat) : Nat :=
  if v < 26 then 65 + v
  else if v < 52 then 97 + (v - 26)
  else if v < 62 then 48 + (v - 52)
  else if v = 62 then 45
  else 95

/-- Python `base64.urlsafe_b64encode` (byte values of the output characters,
with 61 the ASCII code of the padding character). -/
def b64encode : List Nat → List Nat
  | [] => []
  | [a] => [b64Char (a >>> 2), b64Char ((a &&& 3) <<< 4), 61, 61]
  | [a, b] => [b64Char (a >>> 2), b64Char (((a &&& 3) <<< 4) ||| (b >>> 4)),
               b64Char ((b &&& 15) <<< 2), 61]
  | a :: b :: c :: rest =>
    b64Char (a >>> 2) :: b64Char (((a &&& 3) <<< 4) ||| (b >>> 4)) ::
    b64Char (((b &&& 15) <<< 2) ||| (c >>> 6)) :: b64Char (c &&& 63) :: b64encode rest

/-- Modelled from the spec (section 4.2): the key object handed to the Fernet
library, which is not part of the repository.  `material` is the byte string the
source code actually passes around: the url-safe base64 encoding of the 32
derived bytes.  The spec's ideal-KDF reading (decoding under a wrong password
must fail, for every pair of distinct passwords) requires distinct inputs to
yield distinct keys, a property truncated real PBKDF2 output has only
cryptographically; the model therefore carries the identifying inputs alongside
the material, so that key equality is exactly equality of (password, salt). -/
structure FernetKey where
  material : List Nat
  password : List Nat
  salt : List Nat
deriving DecidableEq

/-- `derive_key` (src/helper_functions.py lines 12-22): PBKDF2 then
`base64.urlsafe_b64encode`. -/
def derive_key (password salt : List Nat) : FernetKey :=
  { material := b64encode (kdfDerive password salt), password := password, salt := salt }

/-- Modelled from the spec (section 4.2): Fernet `encrypt` (`seal`), library code
not part of the repository.  The token binds an IV (`nonce`, modelling the IV the
library draws internally), the key and the message: a version byte 128, then
length-delimited IV and key-identifying fields, then the message bytes.  Storing
the key's identifying fields realises the ideal seal/open contract executably:
`open` succeeds exactly under the sealing key. -/
def fernetEncrypt (key : FernetKey) (nonce msg : List Nat) : List Nat :=
  128 :: (lenField nonce ++ lenField key.password ++ lenField key.salt ++ msg)

/-- Modelled from the spec (section 4.2): Fernet `decrypt` (`open`), library code
not part of the repository.  Returns the message iff the token parses and was
sealed under the same key; any structural or key mismatch fails (the library's
`InvalidToken`), with no partial success. -/
def fernetDecrypt (key : FernetKey) (token : List Nat) : Option (List Nat) :=
  match token with
  | 128 :: rest =>
    match parseField rest with
    | some (_nonce, r1) =>
      match parseField r1 with
      | some (pw, r2) =>
        match parseField r2 with
        | some (st, msg) => if pw = key.password ∧ st = key.salt then some msg else none
        | none => none
      | none => none
    | none => none
  | _ => none

/-- `encrypt_message` (src lines 24-33): returns salt (16 bytes) ++ token.
`os.urandom(16)` is the explicit `salt` argument; the Fernet-internal IV is
`nonce`. -/
def encrypt_message (message password salt nonce : List Nat) : List Nat :=
  salt ++ fernetEncrypt (derive_key password salt) nonce message

/-- Result of `decode_image` / `decrypt_message`: the Python functions return a
plain `str` in both outcomes; the model separates the recovered plaintext (as
UTF-8 bytes) from the fixed error strings. -/
inductive DecodeResult where
  | msg : List Nat → DecodeResult
  | err : String → DecodeResult
deriving DecidableEq

def errDecrypt : String := "Error: Incorrect password or corrupted data."

def errNoData : String := "Error: No valid steganography data found."

def errIncomplete : String := "Error: Encoded data incomplete or corrupted."

def errTooSmall : String := "Image resolution is too small to safely encode data."

def errOverflow : String := "OverflowError: int too big to convert"

/-- The f-string of src line 107. -/
def errTooLarge (needed avail : Nat) : String :=
  "Message too large. Needed bits: " ++ toString needed ++ ", but only " ++
    toString avail ++ " bits available."

/-- `decrypt_message` (src lines 35-52).  The whole body sits in a
`try/except Exception` returning the generic string, so the library's
`InvalidToken` (here `fernetDecrypt = none`) and any decoding failure collapse
to `errDecrypt`; `.decode('utf-8')` is modelled as the identity on the
recovered byte list. -/
def decrypt_message (data password : List Nat) : DecodeResult :=
  if data.length < 16 then .err errDecrypt
  else
    match fernetDecrypt (derive_key password (data.take 16)) (data.drop 16) with
    | some m => .msg m
    | none => .err errDecrypt

/-- `MAGIC_HEADER = b"STG1"` (src line 10). -/
def MAGIC_HEADER : List Nat := [83, 84, 71, 49]

/-- `payload_content` of `encode` (src line 92): magic ++ salt ++ token. -/
def payloadContent (message password salt nonce : List Nat) : List Nat :=
  MAGIC_HEADER ++ encrypt_message message password salt nonce

/-- `payload_length` of `encode` (src line 93). -/
def payloadLength (message password salt nonce : List Nat) : Nat :=
  (payloadContent message password salt nonce).length

/-- `full_payload` of `encode` (src line 96): 4-byte big-endian length header
then the payload content. -/
def fullPayload (message password salt nonce : List Nat) : List Nat :=
  toBytesBE 4 (payloadLength message password salt nonce) ++
    payloadContent message password salt nonce

/-- `payload_bits` of `encode` (src line 100): `np.unpackbits` of the full
payload. -/
def payloadBits (message password salt nonce : List Nat) : List Nat :=
  unpackbits (fullPayload message password salt nonce)

/-- `needed_bits` of `encode` (src line 102). -/
def neededBits (message password salt nonce : List Nat) : Nat :=
  (payloadBits message password salt nonce).length

/-- The embedding step of `encode` (src lines 110-119): on the first
`bits.length` samples of the flat buffer, `x &= 0xFE; x |= bit`; the rest of the
buffer is untouched. -/
def embedBits (img bits : List Nat) : List Nat :=
  List.zipWith (fun x b => (x &&& 254) ||| b) (img.take bits.length) bits ++
    img.drop bits.length

/-- Outcome of one `encode` call.  `result` is the returned new array (or the
raised error's message); `callerBuffer` is the caller's array object after the
call.  `image.flatten()` (src line 110) always returns a fresh copy in numpy,
and the in-place writes of lines 115-116 target a view of that copy, so no step
of `encode` ever writes to the caller's buffer. -/
structure EncodeOutcome where
  result : Except String (List Nat)
  callerBuffer : List Nat

/-- `encode` (src lines 76-121), with both randomness draws explicit.  Branches,
in source order: the minimum-size check (line 84), the `to_bytes` overflow
(line 95, an `OverflowError` when the payload length does not fit 4 bytes), the
capacity check (line 106), then the embedding. -/
def encodePy (image message password salt nonce : List Nat) : EncodeOutcome :=
  if image.length < 64 then
    { result := .error errTooSmall, callerBuffer := image }
  else if 2 ^ 32 ≤ payloadLength message password salt nonce then
    { result := .error errOverflow, callerBuffer := image }
  else if image.length < neededBits message password salt nonce then
    { result := .error (errTooLarge (neededBits message password salt nonce) image.length),
      callerBuffer := image }
  else
    { result := .ok (embedBits image (payloadBits message password salt nonce)),
      callerBuffer := image }

/-- The value `encode` returns (or the message of the error it raises). -/
def encode (image message password salt nonce : List Nat) : Except String (List Nat) :=
  (encodePy image message password salt nonce).result

/-- The `payload_length` local of `decode_image` (src lines 131-133): LSBs of the
first 32 samples (fewer on an undersized image, with `np.packbits` zero-padding
the final byte), packed to bytes, read as a big-endian integer. -/
def headerValue (image : List Nat) : Nat :=
  fromBytesBE (packbits ((image.take 32).map (fun x => x &&& 1)))

/-- The `max_payload_bytes` local of `decode_image` (src line 140).  Python `//`
is floor division, which on the negative numerator arising from an image of
fewer than 32 samples rounds toward negative infinity, hence `Int.fdiv`. -/
def maxPayloadBytes (image : List Nat) : Int :=
  Int.fdiv ((image.length : Int) - 32) 8

/-- The `payload_bytes` local of `decode_image` (src lines 152-153). -/
def extractedPayload (image : List Nat) : List Nat :=
  packbits (((image.drop 32).take (headerValue image * 8)).map (fun x => x &&& 1))

/-- `decode_image` (src lines 123-161). -/
def decode_image (image password : List Nat) : DecodeResult :=
  if headerValue image ≤ 0 then .err errNoData
  else if (headerValue image : Int) > maxPayloadBytes image then .err errIncomplete
  else if 32 + headerValue image * 8 > image.length then .err errIncomplete
  else if (extractedPayload image).length < 4 ∨
      (extractedPayload image).take 4 ≠ MAGIC_HEADER then .err errNoData
  else decrypt_message ((extractedPayload image).drop 4) password

/-! ### Lemmas about the bit and byte primitives -/

theorem unpackbits_nil : unpackbits [] = [] := rfl

theorem unpackbits_cons (x : Nat) (xs : List Nat) :
    unpackbits (x :: xs) = byteBits x ++ unpackbits xs := rfl

theorem unpackbits_append (xs ys : List Nat) :
    unpackbits (xs ++ ys) = unpackbits xs ++ unpackbits ys := by
  simp [unpackbits]

theorem length_byteBits (x : Nat) : (byteBits x).length = 8 := rfl

theorem length_unpackbits (xs : List Nat) : (unpackbits xs).length = 8 * xs.length := by
  induction xs with
  | nil => rfl
  | cons x xs ih =>
    rw [unpackbits_cons, List.length_append, length_byteBits, ih, List.length_cons]
    omega

theorem byteBits_le_one {x b : Nat} (h : b ∈ byteBits x) : b ≤ 1 := by
  simp only [byteBits, List.mem_cons, List.not_mem_nil, or_false] at h
  rcases h with h | h | h | h | h | h | h | h <;> subst h <;>
    simp only [Nat.and_one_is_mod] <;> omega

theorem unpackbits_le_one {xs : List Nat} : ∀ b ∈ unpackbits xs, b ≤ 1 := by
  induction xs with
  | nil => simp [unpackbits_nil]
  | cons x xs ih =>
    intro b hb
    rw [unpackbits_cons] at hb
    rcases List.mem_append.mp hb with h | h
    · exact byteBits_le_one h
    · exact ih b h

theorem chunkByte_byteBits {x : Nat} (h : x < 256) : chunkByte (byteBits x) = x := by
  have e : ∀ y : Nat, (if y &&& 1 = 0 then 0 else 1) = y % 2 := by
    intro y
    rw [Nat.and_one_is_mod]
    rcases Nat.mod_two_eq_zero_or_one y with h2 | h2 <;> simp [h2]
  simp only [chunkByte, byteBits, List.foldl, List.length_cons, List.length_nil, e,
    Nat.shiftRight_eq_div_pow]
  norm_num [Nat.shiftLeft_eq]
  omega

theorem packbits_nil : packbits [] = [] := rfl

theorem packbits_append8 {bs : List Nat} (h : bs.length = 8) (rest : List Nat) :
    packbits (bs ++ rest) = chunkByte bs :: packbits rest := by
  cases bs with
  | nil => simp at h
  | cons b0 t0 =>
  cases t0 with
  | nil => simp at h
  | cons b1 t1 =>
  cases t1 with
  | nil => simp at h
  | cons b2 t2 =>
  cases t2 with
  | nil => simp at h
  | cons b3 t3 =>
  cases t3 with
  | nil => simp at h
  | cons b4 t4 =>
  cases t4 with
  | nil => simp at h
  | cons b5 t5 =>
  cases t5 with
  | nil => simp at h
  | cons b6 t6 =>
  cases t6 with
  | nil => simp at h
  | cons b7 t7 =>
  cases t7 with
  | nil => rfl
  | cons b8 t8 =>
    simp only [List.length_cons] at h
    omega

theorem packbits_unpackbits {xs : List Nat} (h : Bytes xs) : packbits (unpackbits xs) = xs := by
  induction xs with
  | nil => rw [unpackbits_nil, packbits_nil]
  | cons x xs ih =>
    rw [unpackbits_cons, packbits_append8 (length_byteBits x),
      chunkByte_byteBits (h x (List.mem_cons_self x xs)),
      ih (fun b hb => h b (List.mem_cons_of_mem x hb))]

theorem take_unpackbits (xs : List Nat) (k : Nat) :
    (unpackbits xs).take (8 * k) = unpackbits (xs.take k) := by
  induction xs generalizing k with
  | nil => simp [unpackbits_nil]
  | cons x xs ih =>
    cases k with
    | zero => simp [unpackbits_nil]
    | succ k =>
      rw [List.take_succ_cons, unpackbits_cons, unpackbits_cons,
        show 8 * (k + 1) = (byteBits x).length + 8 * k by rw [length_byteBits]; omega,
        List.take_append, ih]

theorem drop_unpackbits (xs : List Nat) (k : Nat) :
    (unpackbits xs).drop (8 * k) = unpackbits (xs.drop k) := by
  induction xs generalizing k with
  | nil => simp [unpackbits_nil]
  | cons x xs ih =>
    cases k with
    | zero => simp
    | succ k =>
      rw [List.drop_succ_cons, unpackbits_cons,
        show 8 * (k + 1) = (byteBits x).length + 8 * k by rw [length_byteBits]; omega,
        List.drop_append, ih]

theorem length_toBytesBE (n v : Nat) : (toBytesBE n v).length = n := by
  simp [toBytesBE]

theorem bytes_toBytesBE (n v : Nat) : Bytes (toBytesBE n v) := by
  intro b hb
  simp only [toBytesBE, List.mem_map, List.mem_range] at hb
  obtain ⟨i, _, rfl⟩ := hb
  exact Nat.mod_lt _ (by norm_num)

theorem toBytesBE_four (v : Nat) :
    toBytesBE 4 v = [v / 16777216 % 256, v / 65536 % 256, v / 256 % 256, v % 256] := by
  have hr : List.range 4 = [0, 1, 2, 3] := by decide
  simp [toBytesBE, hr]

theorem fromBytesBE_toBytesBE {v : Nat} (h : v < 2 ^ 32) : fromBytesBE (toBytesBE 4 v) = v := by
  have h' : v < 4294967296 := by norm_num at h; exact h
  rw [toBytesBE_four]
  simp only [fromBytesBE, List.foldl]
  omega

/-! ### Lemmas about byte strings, the varint field coder, and the Fernet model -/

theorem Bytes.append {xs ys : List Nat} (hx : Bytes xs) (hy : Bytes ys) : Bytes (xs ++ ys) := by
  intro b hb
  rcases List.mem_append.mp hb with h | h
  · exact hx b h
  · exact hy b h

theorem Bytes.cons {x : Nat} {xs : List Nat} (h : x < 256) (hx : Bytes xs) : Bytes (x :: xs) := by
  intro b hb
  rcases List.mem_cons.mp hb with rfl | hb
  · exact h
  · exact hx b hb

theorem varintFuel_congr (n : Nat) : ∀ f1 f2, n ≤ f1 → n ≤ f2 →
    varintFuel f1 n = varintFuel f2 n := by
  induction n using Nat.strong_induction_on with
  | _ n ih =>
    intro f1 f2 h1 h2
    by_cases hn : n < 128
    · cases f1 <;> cases f2 <;> simp [varintFuel, hn, Nat.mod_eq_of_lt hn]
    · have hf1 : f1 ≠ 0 := by omega
      have hf2 : f2 ≠ 0 := by omega
      obtain ⟨g1, rfl⟩ := Nat.exists_eq_succ_of_ne_zero hf1
      obtain ⟨g2, rfl⟩ := Nat.exists_eq_succ_of_ne_zero hf2
      simp only [varintFuel, if_neg hn]
      congr 1
      exact ih (n / 128) (by omega) g1 g2 (by omega) (by omega)

theorem varint_eq (n : Nat) :
    varint n = if n < 128 then [n] else (128 + n % 128) :: varint (n / 128) := by
  by_cases hn : n < 128
  · rw [if_pos hn]
    unfold varint
    cases n with
    | zero => simp [varintFuel]
    | succ m => simp [varintFuel, hn]
  · rw [if_neg hn]
    unfold varint
    obtain ⟨g, rfl⟩ : ∃ g, n = g + 1 := ⟨n - 1, by omega⟩
    simp only [varintFuel, if_neg hn]
    congr 1
    exact varintFuel_congr ((g + 1) / 128) g ((g + 1) / 128) (by omega) (Nat.le_refl _)

theorem bytes_varint (n : Nat) : Bytes (varint n) := by
  induction n using Nat.strong_induction_on with
  | _ n ih =>
    rw [varint_eq]
    split
    · intro b hb
      simp only [List.mem_singleton] at hb
      omega
    · intro b hb
      rcases List.mem_cons.mp hb with rfl | hb
      · omega
      · exact ih (n / 128) (by omega) b hb

theorem varint_length_pos (n : Nat) : 1 ≤ (varint n).length := by
  rw [varint_eq]
  split <;> simp

theorem parseVarint_varint (n : Nat) (rest : List Nat) :
    parseVarint (varint n ++ rest) = some (n, rest) := by
  induction n using Nat.strong_induction_on with
  | _ n ih =>
    rw [varint_eq]
    split
    · rename_i h
      simp [parseVarint, h]
    · rename_i h
      have hrec := ih (n / 128) (by omega)
      simp only [List.cons_append, parseVarint, List.append_eq, hrec]
      rw [if_neg (by omega), show 128 + n % 128 - 128 + 128 * (n / 128) = n by omega]

theorem parseField_lenField (xs rest : List Nat) :
    parseField (lenField xs ++ rest) = some (xs, rest) := by
  have h1 : lenField xs ++ rest = varint xs.length ++ (xs ++ rest) := by
    simp [lenField]
  rw [h1]
  simp only [parseField, parseVarint_varint]
  rw [if_pos (by simp)]
  rw [List.take_left, List.drop_left]

theorem bytes_lenField {xs : List Nat} (h : Bytes xs) : Bytes (lenField xs) :=
  (bytes_varint xs.length).append h

theorem bytes_fernetEncrypt {key : FernetKey} {nonce msg : List Nat}
    (hn : Bytes nonce) (hp : Bytes key.password) (hs : Bytes key.salt) (hm : Bytes msg) :
    Bytes (fernetEncrypt key nonce msg) := by
  have h2 : fernetEncrypt key nonce msg
      = 128 :: (lenField nonce ++ (lenField key.password ++ (lenField key.salt ++ msg))) := by
    simp [fernetEncrypt, List.append_assoc]
  rw [h2]
  exact Bytes.cons (by norm_num)
    ((bytes_lenField hn).append ((bytes_lenField hp).append ((bytes_lenField hs).append hm)))

theorem fernetDecrypt_fernetEncrypt (key : FernetKey) (nonce msg : List Nat) :
    fernetDecrypt key (fernetEncrypt key nonce msg) = some msg := by
  show fernetDecrypt key
    (128 :: (lenField nonce ++ lenField key.password ++ lenField key.salt ++ msg)) = some msg
  rw [show lenField nonce ++ lenField key.password ++ lenField key.salt ++ msg
      = lenField nonce ++ (lenField key.password ++ (lenField key.salt ++ msg)) by
    simp [List.append_assoc]]
  simp [fernetDecrypt, parseField_lenField]

theorem fernetDecrypt_wrong_key (key key2 : FernetKey) (nonce msg : List Nat)
    (h : key2.password ≠ key.password) :
    fernetDecrypt key2 (fernetEncrypt key nonce msg) = none := by
  show fernetDecrypt key2
    (128 :: (lenField nonce ++ lenField key.password ++ lenField key.salt ++ msg)) = none
  rw [show lenField nonce ++ lenField key.password ++ lenField key.salt ++ msg
      = lenField nonce ++ (lenField key.password ++ (lenField key.salt ++ msg)) by
    simp [List.append_assoc]]
  simp only [fernetDecrypt, parseField_lenField]
  rw [if_neg]
  intro hh
  exact h hh.1.symm

/-! ### Lemmas about LSB embedding and extraction -/

set_option maxRecDepth 4096 in
theorem emb_bit : ∀ x < 256, ∀ b < 2,
    ((x &&& 254) ||| b) &&& 1 = b ∧ ((x &&& 254) ||| b) >>> 1 = x >>> 1 := by decide

theorem map_and_one_zipWith {xs bs : List Nat} (hx : Bytes xs) (hb : ∀ b ∈ bs, b ≤ 1)
    (hlen : bs.length ≤ xs.length) :
    (List.zipWith (fun x b => (x &&& 254) ||| b) xs bs).map (fun y => y &&& 1) = bs := by
  induction bs generalizing xs with
  | nil => simp
  | cons b bs ih =>
    cases xs with
    | nil => simp at hlen
    | cons x xs =>
      simp only [List.zipWith_cons_cons, List.map_cons]
      have h1 : x < 256 := hx x (List.mem_cons_self x xs)
      have h2 : b < 2 := by
        have := hb b (List.mem_cons_self b bs)
        omega
      rw [(emb_bit x h1 b h2).1,
        ih (fun y hy => hx y (List.mem_cons_of_mem x hy))
          (fun y hy => hb y (List.mem_cons_of_mem b hy))
          (by simp only [List.length_cons] at hlen; omega)]

theorem length_embedBits {img bits : List Nat} (h : bits.length ≤ img.length) :
    (embedBits img bits).length = img.length := by
  simp only [embedBits, List.length_append, List.length_zipWith, List.length_take,
    List.length_drop]
  omega

theorem embed_lsbs {img bits : List Nat} (himg : Bytes img) (hb : ∀ b ∈ bits, b ≤ 1)
    (hlen : bits.length ≤ img.length) :
    (embedBits img bits).map (fun y => y &&& 1)
      = bits ++ (img.drop bits.length).map (fun y => y &&& 1) := by
  rw [embedBits, List.map_append,
    map_and_one_zipWith (fun y hy => himg y (List.take_subset _ _ hy)) hb
      (by simp only [List.length_take]; omega)]

theorem getD_append_left {xs ys : List Nat} {i : Nat} (h : i < xs.length) (d : Nat) :
    (xs ++ ys).getD i d = xs.getD i d := by
  induction xs generalizing i with
  | nil => simp at h
  | cons x xs ih =>
    cases i with
    | zero => rfl
    | succ i =>
      simp only [List.cons_append, List.getD_cons_succ]
      exact ih (by simp only [List.length_cons] at h; omega)

theorem getD_append_right {xs ys : List Nat} {i : Nat} (h : xs.length ≤ i) (d : Nat) :
    (xs ++ ys).getD i d = ys.getD (i - xs.length) d := by
  induction xs generalizing i with
  | nil => simp
  | cons x xs ih =>
    cases i with
    | zero => simp at h
    | succ i =>
      simp only [List.cons_append, List.getD_cons_succ, List.length_cons]
      rw [ih (by simp only [List.length_cons] at h; omega)]
      congr 1
      omega

theorem getD_zipWith {f : Nat → Nat → Nat} {xs ys : List Nat} {i : Nat}
    (hx : i < xs.length) (hy : i < ys.length) :
    (List.zipWith f xs ys).getD i 0 = f (xs.getD i 0) (ys.getD i 0) := by
  induction xs generalizing ys i with
  | nil => simp at hx
  | cons x xs ih =>
    cases ys with
    | nil => simp at hy
    | cons y ys =>
      cases i with
      | zero => rfl
      | succ i =>
        simp only [List.zipWith_cons_cons, List.getD_cons_succ]
        exact ih (by simp only [List.length_cons] at hx; omega)
          (by simp only [List.length_cons] at hy; omega)

theorem getD_take (xs : List Nat) : ∀ n i, i < n → ∀ d, (xs.take n).getD i d = xs.getD i d := by
  induction xs with
  | nil => intro n i h d; simp
  | cons x xs ih =>
    intro n i h d
    cases n with
    | zero => omega
    | succ n =>
      cases i with
      | zero => rfl
      | succ i =>
        simp only [List.take_succ_cons, List.getD_cons_succ]
        exact ih n i (by omega) d

theorem getD_drop (xs : List Nat) : ∀ n i d, (xs.drop n).getD i d = xs.getD (n + i) d := by
  induction xs with
  | nil => intro n i d; simp
  | cons x xs ih =>
    intro n i d
    cases n with
    | zero => simp
    | succ n =>
      simp only [List.drop_succ_cons]
      rw [ih, show n + 1 + i = (n + i) + 1 by omega, List.getD_cons_succ]

theorem getD_mem {xs : List Nat} {i : Nat} (h : i < xs.length) (d : Nat) :
    xs.getD i d ∈ xs := by
  induction xs generalizing i with
  | nil => simp at h
  | cons x xs ih =>
    cases i with
    | zero => exact List.mem_cons_self x xs
    | succ i =>
      exact List.mem_cons_of_mem x (ih (by simp only [List.length_cons] at h; omega))

theorem getD_unpackbits {xs : List Nat} {i : Nat} (h : i < 8 * xs.length) :
    (unpackbits xs).getD i 0 = (xs.getD (i / 8) 0) >>> (7 - i % 8) &&& 1 := by
  induction xs generalizing i with
  | nil => simp at h
  | cons x xs ih =>
    rw [unpackbits_cons]
    by_cases hi : i < 8
    · rw [getD_append_left (by rw [length_byteBits]; omega),
        show i / 8 = 0 by omega, List.getD_cons_zero]
      interval_cases i <;> rfl
    · rw [getD_append_right (by rw [length_byteBits]; omega),
        length_byteBits, ih (by simp only [List.length_cons] at h; omega),
        show (i - 8) / 8 = i / 8 - 1 by omega, show (i - 8) % 8 = i % 8 by omega,
        show i / 8 = (i / 8 - 1) + 1 by omega, List.getD_cons_succ]
      simp only [Nat.add_sub_cancel]

/-! ### Length facts about the framed payload -/

theorem payloadLength_eq (message password salt nonce : List Nat) :
    payloadLength message password salt nonce
      = 4 + salt.length + (fernetEncrypt (derive_key password salt) nonce message).length := by
  simp only [payloadLength, payloadContent, encrypt_message, MAGIC_HEADER, List.length_append]
  simp
  omega

theorem derive_key_password (password salt : List Nat) :
    (derive_key password salt).password = password := rfl

theorem derive_key_salt (password salt : List Nat) :
    (derive_key password salt).salt = salt := rfl

theorem payloadLength_lower (message password salt nonce : List Nat) :
    8 ≤ payloadLength message password salt nonce := by
  rw [payloadLength_eq]
  have h1 := varint_length_pos nonce.length
  have h2 := varint_length_pos password.length
  have h3 := varint_length_pos salt.length
  simp only [fernetEncrypt, lenField, derive_key_password, derive_key_salt,
    List.length_cons, List.length_append]
  omega

theorem neededBits_eq (message password salt nonce : List Nat) :
    neededBits message password salt nonce
      = 32 + 8 * payloadLength message password salt nonce := by
  simp only [neededBits, payloadBits, length_unpackbits, fullPayload, List.length_append,
    length_toBytesBE, payloadLength]
  omega

/-! ### Decrypting recovered data -/

theorem bytes_MAGIC : Bytes MAGIC_HEADER := by decide

theorem bytes_payloadContent {message password salt nonce : List Nat}
    (hsalt : Bytes salt) (hmsg : Bytes message) (hpw : Bytes password) (hnonce : Bytes nonce) :
    Bytes (payloadContent message password salt nonce) := by
  unfold payloadContent encrypt_message
  exact bytes_MAGIC.append (hsalt.append (bytes_fernetEncrypt hnonce hpw hsalt hmsg))

theorem decrypt_encrypt_same (message password salt nonce : List Nat)
    (hsl : salt.length = 16) :
    decrypt_message (encrypt_message message password salt nonce) password = .msg message := by
  unfold decrypt_message encrypt_message
  rw [if_neg (by simp only [List.length_append, hsl]; omega),
    List.take_left' hsl, List.drop_left' hsl, fernetDecrypt_fernetEncrypt]

theorem decrypt_encrypt_wrong (message p1 p2 salt nonce : List Nat)
    (hsl : salt.length = 16) (hne : p2 ≠ p1) :
    decrypt_message (encrypt_message message p1 salt nonce) p2 = .err errDecrypt := by
  unfold decrypt_message encrypt_message
  rw [if_neg (by simp only [List.length_append, hsl]; omega),
    List.take_left' hsl, List.drop_left' hsl,
    fernetDecrypt_wrong_key (derive_key p1 salt) (derive_key p2 salt) nonce message hne]

/-! ### Decoding an encoded buffer reaches the decrypt step with the exact framed data -/

theorem decode_embed (image message password salt nonce pw2 : List Nat)
    (himg : Bytes image) (hsalt : Bytes salt) (hmsg : Bytes message)
    (hpw : Bytes password) (hnonce : Bytes nonce)
    (hL : payloadLength message password salt nonce < 2 ^ 32)
    (hcap : neededBits message password salt nonce ≤ image.length) :
    decode_image (embedBits image (payloadBits message password salt nonce)) pw2
      = decrypt_message (encrypt_message message password salt nonce) pw2 := by
  have hNeq := neededBits_eq message password salt nonce
  have hLlow := payloadLength_lower message password salt nonce
  have hbitslen : (payloadBits message password salt nonce).length
      = neededBits message password salt nonce := rfl
  have hble : (payloadBits message password salt nonce).length ≤ image.length := by
    rw [hbitslen]; exact hcap
  have hb1 : ∀ b ∈ payloadBits message password salt nonce, b ≤ 1 := unpackbits_le_one
  have houtlen : (embedBits image (payloadBits message password salt nonce)).length
      = image.length := length_embedBits hble
  have hmap : (embedBits image (payloadBits message password salt nonce)).map (fun y => y &&& 1)
      = payloadBits message password salt nonce ++
        (image.drop (payloadBits message password salt nonce).length).map (fun y => y &&& 1) :=
    embed_lsbs himg hb1 hble
  have htake4 : (fullPayload message password salt nonce).take 4
      = toBytesBE 4 (payloadLength message password salt nonce) :=
    List.take_left' (length_toBytesBE 4 _)
  have hdrop4 : (fullPayload message password salt nonce).drop 4
      = payloadContent message password salt nonce :=
    List.drop_left' (length_toBytesBE 4 _)
  have hbits_take : (payloadBits message password salt nonce).take 32
      = unpackbits (toBytesBE 4 (payloadLength message password salt nonce)) := by
    rw [payloadBits, show (32 : Nat) = 8 * 4 by norm_num, take_unpackbits, htake4]
  have hbits_drop : (payloadBits message password salt nonce).drop 32
      = unpackbits (payloadContent message password salt nonce) := by
    rw [payloadBits, show (32 : Nat) = 8 * 4 by norm_num, drop_unpackbits, hdrop4]
  have h32le : 32 ≤ (payloadBits message password salt nonce).length := by
    rw [hbitslen, hNeq]; omega
  have hheader : headerValue (embedBits image (payloadBits message password salt nonce))
      = payloadLength message password salt nonce := by
    unfold headerValue
    rw [List.map_take, hmap, List.take_append_of_le_length h32le, hbits_take,
      packbits_unpackbits (bytes_toBytesBE 4 _), fromBytesBE_toBytesBE hL]
  have hmax : maxPayloadBytes (embedBits image (payloadBits message password salt nonce))
      = Int.fdiv ((image.length : Int) - 32) 8 := by
    unfold maxPayloadBytes
    rw [houtlen]
  have hextract : extractedPayload (embedBits image (payloadBits message password salt nonce))
      = payloadContent message password salt nonce := by
    unfold extractedPayload
    rw [hheader, List.map_take, List.map_drop, hmap,
      List.drop_append_of_le_length h32le,
      List.take_left' (by
        rw [List.length_drop, hbitslen, hNeq]
        omega),
      hbits_drop, packbits_unpackbits (bytes_payloadContent hsalt hmsg hpw hnonce)]
  have hcontentlen : (payloadContent message password salt nonce).length
      = payloadLength message password salt nonce := rfl
  have hcond2 : ¬ ((headerValue (embedBits image (payloadBits message password salt nonce)) : Int)
      > maxPayloadBytes (embedBits image (payloadBits message password salt nonce))) := by
    rw [hheader, hmax, Int.fdiv_eq_ediv _ (by norm_num)]
    have hcap' : 32 + 8 * payloadLength message password salt nonce ≤ image.length := by
      omega
    omega
  have hcond3 : ¬ (32 + headerValue (embedBits image (payloadBits message password salt nonce)) * 8
      > (embedBits image (payloadBits message password salt nonce)).length) := by
    rw [hheader, houtlen]
    omega
  unfold decode_image
  rw [if_neg (by rw [hheader]; omega), if_neg hcond2, if_neg hcond3,
    if_neg (by
      rw [hextract, hcontentlen]
      push_neg
      refine ⟨by omega, ?_⟩
      unfold payloadContent
      exact List.take_left' (by decide)),
    hextract]
  unfold payloadContent
  rw [List.drop_left' (by decide : MAGIC_HEADER.length = 4)]

/-! ### Branch analysis of encode -/

theorem encode_ok (image message password salt nonce : List Nat)
    (h64 : ¬ image.length < 64)
    (hL : payloadLength message password salt nonce < 2 ^ 32)
    (hcap : neededBits message password salt nonce ≤ image.length) :
    encode image message password salt nonce
      = .ok (embedBits image (payloadBits message password salt nonce)) := by
  unfold encode encodePy
  rw [if_neg h64, if_neg (Nat.not_le.mpr hL), if_neg (Nat.not_lt.mpr hcap)]

theorem encode_ok_conditions {image message password salt nonce out : List Nat}
    (h : encode image message password salt nonce = .ok out) :
    ¬ image.length < 64 ∧ payloadLength message password salt nonce < 2 ^ 32 ∧
      neededBits message password salt nonce ≤ image.length ∧
      out = embedBits image (payloadBits message password salt nonce) := by
  unfold encode encodePy at h
  by_cases h1 : image.length < 64
  · rw [if_pos h1] at h
    exact absurd h (by simp)
  rw [if_neg h1] at h
  by_cases h2 : 2 ^ 32 ≤ payloadLength message password salt nonce
  · rw [if_pos h2] at h
    exact absurd h (by simp)
  rw [if_neg h2] at h
  by_cases h3 : image.length < neededBits message password salt nonce
  · rw [if_pos h3] at h
    exact absurd h (by simp)
  rw [if_neg h3] at h
  simp only [Except.ok.injEq] at h
  exact ⟨h1, Nat.lt_of_not_le h2, Nat.le_of_not_lt h3, h.symm⟩

theorem not_small_of_cap {image message password salt nonce : List Nat}
    (hcap : neededBits message password salt nonce ≤ image.length) :
    ¬ image.length < 64 := by
  have h1 := neededBits_eq message password salt nonce
  have h2 := payloadLength_lower message password salt nonce
  omega

/-! ### The claims -/

/-- C1: for every password and every message whose framed bitstream (32-bit
length header plus magic, salt and token bits — well formed, so the framed
byte length fits the 32-bit header) is no longer than the image's bit capacity,
decoding the encoded image with the same password returns exactly the message.
The `Bytes` hypotheses are the `uint8`/`bytes` type invariants of the Python
values; `salt.length = 16` is the `os.urandom(16)` contract. -/
theorem C1_round_trip (image message password salt nonce : List Nat)
    (himg : Bytes image) (hsalt : Bytes salt) (hmsg : Bytes message)
    (hpw : Bytes password) (hnonce : Bytes nonce) (hsl : salt.length = 16)
    (hL : payloadLength message password salt nonce < 2 ^ 32)
    (hcap : neededBits message password salt nonce ≤ image.length) :
    ∃ out, encode image message password salt nonce = .ok out ∧
      decode_image out password = .msg message :=
  ⟨embedBits image (payloadBits message password salt nonce),
    encode_ok image message password salt nonce (not_small_of_cap hcap) hL hcap,
    by
      rw [decode_embed image message password salt nonce password himg hsalt hmsg hpw hnonce
          hL hcap,
        decrypt_encrypt_same message password salt nonce hsl]⟩

/-- Witness for C1 at a concrete 600-sample image, message "hi", password "a". -/
theorem C1_round_trip_witness :
    ∃ out, encode (List.replicate 600 7) [104, 105] [97] (List.range 16) [] = .ok out ∧
      decode_image out [97] = .msg [104, 105] :=
  C1_round_trip (List.replicate 600 7) [104, 105] [97] (List.range 16) []
    (by decide) (by decide) (by decide) (by decide) (by decide) (by decide)
    (by decide) (by decide)

/-- C3: encoding under one password and decoding under a different password
returns the generic decrypt error (and hence never a plaintext result): the
open/decrypt step fails outright when the derived key is wrong. -/
theorem C3_wrong_password (image message p1 p2 salt nonce : List Nat)
    (hne : p1 ≠ p2)
    (himg : Bytes image) (hsalt : Bytes salt) (hmsg : Bytes message)
    (hp1 : Bytes p1) (hnonce : Bytes nonce) (hsl : salt.length = 16)
    (hL : payloadLength message p1 salt nonce < 2 ^ 32)
    (hcap : neededBits message p1 salt nonce ≤ image.length) :
    ∃ out, encode image message p1 salt nonce = .ok out ∧
      decode_image out p2 = .err errDecrypt :=
  ⟨embedBits image (payloadBits message p1 salt nonce),
    encode_ok image message p1 salt nonce (not_small_of_cap hcap) hL hcap,
    by
      rw [decode_embed image message p1 salt nonce p2 himg hsalt hmsg hp1 hnonce hL hcap,
        decrypt_encrypt_wrong message p1 p2 salt nonce hsl (Ne.symm hne)]⟩

/-- Witness for C3: passwords "a" and "b". -/
theorem C3_wrong_password_witness :
    ∃ out, encode (List.replicate 600 7) [104, 105] [97] (List.range 16) [] = .ok out ∧
      decode_image out [98] = .err errDecrypt :=
  C3_wrong_password (List.replicate 600 7) [104, 105] [97] [98] (List.range 16) []
    (by decide) (by decide) (by decide) (by decide) (by decide) (by decide)
    (by decide) (by decide) (by decide)

/-- C4: a message whose framed bitstream exactly equals the image's bit capacity
encodes successfully; a payload exceeding the capacity of a viable (at least
64-sample, header-representable) image fails with the message-too-large error,
and on that failure path the caller's buffer is unchanged. -/
theorem C4_capacity_boundary (image message password salt nonce : List Nat)
    (hL : payloadLength message password salt nonce < 2 ^ 32) :
    (neededBits message password salt nonce = image.length →
      ∃ out, encode image message password salt nonce = .ok out) ∧
    (image.length < neededBits message password salt nonce → 64 ≤ image.length →
      encode image message password salt nonce
          = .error (errTooLarge (neededBits message password salt nonce) image.length) ∧
        (encodePy image message password salt nonce).callerBuffer = image) := by
  constructor
  · intro hexact
    exact ⟨_, encode_ok image message password salt nonce
      (not_small_of_cap (Nat.le_of_eq hexact)) hL (Nat.le_of_eq hexact)⟩
  · intro hover h64
    unfold encode encodePy
    rw [if_neg (by omega), if_neg (Nat.not_le.mpr hL), if_pos hover]
    exact ⟨rfl, rfl⟩

/-- Witness for C4: a 376-sample image is exactly the capacity needed for the
witness payload and succeeds; a 100-sample image fails with the too-large
error and its buffer is untouched. -/
theorem C4_capacity_boundary_witness :
    (∃ out, encode (List.replicate 376 0) [104, 105] [97] (List.range 16) [] = .ok out) ∧
    encode (List.replicate 100 0) [104, 105] [97] (List.range 16) []
        = .error (errTooLarge (neededBits [104, 105] [97] (List.range 16) [])
            (List.replicate 100 0).length) ∧
    (encodePy (List.replicate 100 0) [104, 105] [97] (List.range 16) []).callerBuffer
        = List.replicate 100 0 := by
  refine ⟨(C4_capacity_boundary (List.replicate 376 0) [104, 105] [97] (List.range 16) []
    (by decide)).1 (by decide), ?_, ?_⟩
  · exact ((C4_capacity_boundary (List.replicate 100 0) [104, 105] [97] (List.range 16) []
      (by decide)).2 (by decide) (by decide)).1
  · exact ((C4_capacity_boundary (List.replicate 100 0) [104, 105] [97] (List.range 16) []
      (by decide)).2 (by decide) (by decide)).2

/-- C6: an image with fewer than 64 samples fails encode with the
image-too-small error, for every message, password and randomness; the check
is the first branch of `encode`, before any cryptographic or embedding step. -/
theorem C6_minimum_image (image message password salt nonce : List Nat)
    (h : image.length < 64) :
    encode image message password salt nonce = .error errTooSmall := by
  unfold encode encodePy
  rw [if_pos h]

/-- Witness for C6 on a 10-sample image. -/
theorem C6_minimum_image_witness :
    encode (List.replicate 10 3) [104] [97] (List.range 16) [] = .error errTooSmall :=
  C6_minimum_image (List.replicate 10 3) [104] [97] (List.range 16) [] (by decide)

/-- C7: the framed payload of every successful encode is the 4-byte big-endian
length header followed by magic "STG1", the 16-byte salt, and the token, with
the header encoding exactly 4 + 16 + len(token). -/
theorem C7_framing (image message password salt nonce out : List Nat)
    (hok : encode image message password salt nonce = .ok out) (hsl : salt.length = 16) :
    payloadLength message password salt nonce
        = 4 + 16 + (fernetEncrypt (derive_key password salt) nonce message).length ∧
    fullPayload message password salt nonce
        = toBytesBE 4 (payloadLength message password salt nonce)
            ++ (MAGIC_HEADER ++
              (salt ++ fernetEncrypt (derive_key password salt) nonce message)) ∧
    fromBytesBE (toBytesBE 4 (payloadLength message password salt nonce))
        = payloadLength message password salt nonce := by
  have hL := (encode_ok_conditions hok).2.1
  refine ⟨?_, rfl, fromBytesBE_toBytesBE hL⟩
  rw [payloadLength_eq, hsl]

/-- Witness for C7 at the concrete inputs of the round-trip witness. -/
theorem C7_framing_witness :
    payloadLength [104, 105] [97] (List.range 16) []
        = 4 + 16 + (fernetEncrypt (derive_key [97] (List.range 16)) [] [104, 105]).length ∧
    fullPayload [104, 105] [97] (List.range 16) []
        = toBytesBE 4 (payloadLength [104, 105] [97] (List.range 16) [])
            ++ (MAGIC_HEADER ++
              (List.range 16 ++ fernetEncrypt (derive_key [97] (List.range 16)) [] [104, 105])) ∧
    fromBytesBE (toBytesBE 4 (payloadLength [104, 105] [97] (List.range 16) []))
        = payloadLength [104, 105] [97] (List.range 16) [] :=
  C7_framing (List.replicate 600 7) [104, 105] [97] (List.range 16) []
    (embedBits (List.replicate 600 7) (payloadBits [104, 105] [97] (List.range 16) []))
    (encode_ok (List.replicate 600 7) [104, 105] [97] (List.range 16) []
      (by decide) (by decide) (by decide))
    (by decide)

/-- C9: `encode` never mutates the caller's pixel buffer: `image.flatten()`
copies, the LSB writes target that copy, and a new array is returned, so after
the call — on every branch, success or failure — the caller's buffer is
unchanged. -/
theorem C9_caller_buffer_unchanged (image message password salt nonce : List Nat) :
    (encodePy image message password salt nonce).callerBuffer = image := by
  unfold encodePy
  by_cases h1 : image.length < 64
  · rw [if_pos h1]
  rw [if_neg h1]
  by_cases h2 : 2 ^ 32 ≤ payloadLength message password salt nonce
  · rw [if_pos h2]
  rw [if_neg h2]
  by_cases h3 : image.length < neededBits message password salt nonce
  · rw [if_pos h3]
  rw [if_neg h3]

theorem getD_of_length_le {xs : List Nat} {i : Nat} (h : xs.length ≤ i) (d : Nat) :
    xs.getD i d = d := by
  induction xs generalizing i with
  | nil => rfl
  | cons x xs ih =>
    cases i with
    | zero => simp at h
    | succ i =>
      simp only [List.getD_cons_succ]
      exact ih (by simp only [List.length_cons] at h; omega)

/-- C5: on a successful encode, the first `len(payload_bits)` samples of the
flat buffer carry the payload bits in their least significant bit — bit `i` is
bit `7 - i % 8` of payload byte `i / 8`, i.e. the bytes are unpacked
most-significant-bit first — the upper bits of each touched sample are
preserved, and every sample beyond that range is unchanged. -/
theorem C5_embedding_layout (image message password salt nonce : List Nat)
    (himg : Bytes image)
    (hL : payloadLength message password salt nonce < 2 ^ 32)
    (hcap : neededBits message password salt nonce ≤ image.length) :
    ∃ out, encode image message password salt nonce = .ok out ∧
      out.length = image.length ∧
      (∀ i, i < neededBits message password salt nonce →
        out.getD i 0 &&& 1
            = (fullPayload message password salt nonce).getD (i / 8) 0 >>> (7 - i % 8) &&& 1 ∧
        out.getD i 0 >>> 1 = image.getD i 0 >>> 1) ∧
      (∀ i, neededBits message password salt nonce ≤ i → out.getD i 0 = image.getD i 0) := by
  have hbitslen : (payloadBits message password salt nonce).length
      = neededBits message password salt nonce := rfl
  have hble : (payloadBits message password salt nonce).length ≤ image.length := by
    rw [hbitslen]; exact hcap
  have htakelen : (image.take (payloadBits message password salt nonce).length).length
      = (payloadBits message password salt nonce).length := by
    rw [List.length_take]; omega
  have hziplen : (List.zipWith (fun x b => (x &&& 254) ||| b)
      (image.take (payloadBits message password salt nonce).length)
      (payloadBits message password salt nonce)).length
      = (payloadBits message password salt nonce).length := by
    rw [List.length_zipWith, htakelen, Nat.min_self]
  refine ⟨embedBits image (payloadBits message password salt nonce),
    encode_ok image message password salt nonce (not_small_of_cap hcap) hL hcap,
    length_embedBits hble, ?_, ?_⟩
  · intro i hi
    have hib : i < (payloadBits message password salt nonce).length := by
      rw [hbitslen]; exact hi
    have hiimg : i < image.length := by omega
    have hbit : (payloadBits message password salt nonce).getD i 0 < 2 := by
      have := unpackbits_le_one _ (getD_mem hib 0)
      omega
    have h1 : (embedBits image (payloadBits message password salt nonce)).getD i 0
        = ((image.getD i 0 &&& 254) ||| (payloadBits message password salt nonce).getD i 0) := by
      rw [embedBits, getD_append_left (by rw [hziplen]; exact hib),
        getD_zipWith (by rw [htakelen]; exact hib) hib,
        getD_take image (payloadBits message password salt nonce).length i hib]
    have hx : image.getD i 0 < 256 := himg _ (getD_mem hiimg 0)
    constructor
    · rw [h1, (emb_bit (image.getD i 0) hx _ hbit).1]
      exact getD_unpackbits (by rw [← length_unpackbits]; exact hib)
    · rw [h1]
      exact (emb_bit (image.getD i 0) hx _ hbit).2
  · intro i hi
    have hib : (payloadBits message password salt nonce).length ≤ i := by
      rw [hbitslen]; exact hi
    rw [embedBits, getD_append_right (by rw [hziplen]; exact hib), hziplen, getD_drop,
      show (payloadBits message password salt nonce).length
          + (i - (payloadBits message password salt nonce).length) = i by omega]

/-- Witness for C5 at the concrete inputs of the round-trip witness,
instantiated at sample index 0 and at one index beyond the payload. -/
theorem C5_embedding_layout_witness :
    ∃ out, encode (List.replicate 600 7) [104, 105] [97] (List.range 16) [] = .ok out ∧
      out.length = (List.replicate 600 7 : List Nat).length ∧
      (∀ i, i < neededBits [104, 105] [97] (List.range 16) [] →
        out.getD i 0 &&& 1
            = (fullPayload [104, 105] [97] (List.range 16) []).getD (i / 8) 0
                >>> (7 - i % 8) &&& 1 ∧
        out.getD i 0 >>> 1 = (List.replicate 600 7 : List Nat).getD i 0 >>> 1) ∧
      (∀ i, neededBits [104, 105] [97] (List.range 16) [] ≤ i →
        out.getD i 0 = (List.replicate 600 7 : List Nat).getD i 0) :=
  C5_embedding_layout (List.replicate 600 7) [104, 105] [97] (List.range 16) []
    (by decide) (by decide) (by decide)

/-- C2 counterexample: two failing decodes return different error strings — an
all-zero-LSB image fails with the no-data string, an all-one-LSB image with the
incomplete-data string — so the decode failure paths do not collapse to one
and the same externally visible result string. -/
theorem C2_counterexample :
    decode_image (List.replicate 64 0) [] = .err errNoData ∧
    decode_image (List.replicate 64 1) [] = .err errIncomplete ∧
    errNoData ≠ errIncomplete := by
  refine ⟨by decide, by decide, by decide⟩

/-- C2 (amended): every decode-side failure is returned, not raised, but under
three distinct generic strings: a non-positive length header or a bad magic
signature returns the no-data string; an over-capacity or truncated payload
returns the incomplete-data string; short data and every decryption or
authentication failure return the bad-password-or-corrupted string. -/
theorem C2_failure_strings (image password : List Nat) :
    (headerValue image ≤ 0 → decode_image image password = .err errNoData) ∧
    (¬ headerValue image ≤ 0 → (headerValue image : Int) > maxPayloadBytes image →
      decode_image image password = .err errIncomplete) ∧
    (¬ headerValue image ≤ 0 → ¬ (headerValue image : Int) > maxPayloadBytes image →
      32 + headerValue image * 8 > image.length →
      decode_image image password = .err errIncomplete) ∧
    (¬ headerValue image ≤ 0 → ¬ (headerValue image : Int) > maxPayloadBytes image →
      ¬ 32 + headerValue image * 8 > image.length →
      ((extractedPayload image).length < 4 ∨ (extractedPayload image).take 4 ≠ MAGIC_HEADER) →
      decode_image image password = .err errNoData) ∧
    (∀ data, data.length < 16 → decrypt_message data password = .err errDecrypt) ∧
    (∀ data, fernetDecrypt (derive_key password (data.take 16)) (data.drop 16) = none →
      decrypt_message data password = .err errDecrypt) := by
  refine ⟨?_, ?_, ?_, ?_, ?_, ?_⟩
  · intro h1
    unfold decode_image
    rw [if_pos h1]
  · intro h1 h2
    unfold decode_image
    rw [if_neg h1, if_pos h2]
  · intro h1 h2 h3
    unfold decode_image
    rw [if_neg h1, if_neg h2, if_pos h3]
  · intro h1 h2 h3 h4
    unfold decode_image
    rw [if_neg h1, if_neg h2, if_neg h3, if_pos h4]
  · intro data h
    unfold decrypt_message
    rw [if_pos h]
  · intro data h
    unfold decrypt_message
    by_cases hlen : data.length < 16
    · rw [if_pos hlen]
    · rw [if_neg hlen, h]

/-- Witness for C2's amended statement: the no-data path at an all-zero image. -/
theorem C2_failure_strings_witness :
    decode_image (List.replicate 40 0) [] = .err errNoData :=
  (C2_failure_strings (List.replicate 40 0) []).1 (by decide)

/-- C8 counterexample: at password "a" and a concrete 16-byte salt, the value
`derive_key` returns is 44 bytes long — the url-safe base64 encoding of the 32
derived bytes — not a 32-byte key. -/
theorem C8_counterexample :
    (derive_key [97] (List.replicate 16 0)).material.length ≠ 32 := by decide

theorem b64encode_length (xs : List Nat) :
    (b64encode xs).length = 4 * ((xs.length + 2) / 3) := by
  match xs with
  | [] => rfl
  | [a] => simp [b64encode]
  | [a, b] => simp [b64encode]
  | a :: b :: c :: rest =>
    have ih := b64encode_length rest
    simp only [b64encode, List.length_cons, ih]
    omega

/-- C8 (amended): `derive_key` is a pure deterministic function of (password,
salt): it derives 32 bytes of key material and returns its url-safe base64
encoding, a 44-byte string (the Fernet key format); equal inputs give equal
results. -/
theorem C8_derive_key (password salt : List Nat) :
    (kdfDerive password salt).length = 32 ∧
    (derive_key password salt).material = b64encode (kdfDerive password salt) ∧
    (derive_key password salt).material.length = 44 ∧
    ∀ password2 salt2, password2 = password → salt2 = salt →
      derive_key password2 salt2 = derive_key password salt := by
  have h32 : (kdfDerive password salt).length = 32 := by
    simp [kdfDerive]
  refine ⟨h32, rfl, ?_, ?_⟩
  · show (b64encode (kdfDerive password salt)).length = 44
    rw [b64encode_length, h32]
  · rintro _ _ rfl rfl
    rfl

/-- Witness for C8's amended statement at password "a" and a zero salt. -/
theorem C8_derive_key_witness :
    (kdfDerive [97] (List.replicate 16 0)).length = 32 ∧
    (derive_key [97] (List.replicate 16 0)).material.length = 44 ∧
    derive_key [97] (List.replicate 16 0) = derive_key [97] (List.replicate 16 0) := by
  obtain ⟨h1, _, h3, h4⟩ := C8_derive_key [97] (List.replicate 16 0)
  exact ⟨h1, h3, h4 [97] (List.replicate 16 0) rfl rfl⟩

/-- C10: `decode_image` is total on byte images: for every image and password
it returns either a recovered message or one of the three error strings; every
failure — including any failure inside decryption, whose Python `try/except`
is modelled by the total `fernetDecrypt` match — becomes a returned string,
never a propagated exception.  This covers images shorter than 32 samples
(whose partial header is zero-padded by `packbits`) and images whose
`max_payload_bytes` is negative. -/
theorem C10_decode_total (image password : List Nat) :
    (∃ m, decode_image image password = .msg m) ∨
      decode_image image password = .err errNoData ∨
      decode_image image password = .err errIncomplete ∨
      decode_image image password = .err errDecrypt := by
  unfold decode_image
  by_cases h1 : headerValue image ≤ 0
  · rw [if_pos h1]
    exact .inr (.inl rfl)
  rw [if_neg h1]
  by_cases h2 : (headerValue image : Int) > maxPayloadBytes image
  · rw [if_pos h2]
    exact .inr (.inr (.inl rfl))
  rw [if_neg h2]
  by_cases h3 : 32 + headerValue image * 8 > image.length
  · rw [if_pos h3]
    exact .inr (.inr (.inl rfl))
  rw [if_neg h3]
  by_cases h4 : (extractedPayload image).length < 4 ∨
      (extractedPayload image).take 4 ≠ MAGIC_HEADER
  · rw [if_pos h4]
    exact .inr (.inl rfl)
  rw [if_neg h4]
  unfold decrypt_message
  by_cases h5 : ((extractedPayload image).drop 4).length < 16
  · rw [if_pos h5]
    exact .inr (.inr (.inr rfl))
  rw [if_neg h5]
  cases hfd : fernetDecrypt (derive_key password (((extractedPayload image).drop 4).take 16))
      (((extractedPayload image).drop 4).drop 16) with
  | some m => exact .inl ⟨m, rfl⟩
  | none => exact .inr (.inr (.inr rfl))

end Kabutr
